import Mathlib

/-!
Verification of the binary-I/O core of the `cape` repository
(`src/cape/pc_io.h`): byte-order normalization (`bs32`, `bs64`,
`swap_single`, `swap_double`) and Fortran-style record writing
(`pc_WriteRecord_*`: 4-byte length prefix, payload, 4-byte length suffix).

Raw multi-byte quantities are embedded as `Nat` bit patterns together with
an explicit width in bytes; a value's in-memory image is its list of bytes
(least-significant first on a little-endian host).  Floats are carried by
their IEEE-754 bit patterns throughout, because every operation of the core
is a pure byte permutation and never numeric arithmetic.
-/

namespace Cape

/-- Target or host byte order. -/
inductive Endian where
  | big : Endian
  | little : Endian
deriving DecidableEq, Repr

/-- Little-endian byte decomposition of a bit pattern: `w` bytes, least
significant first.  This is the in-memory image of a `w`-byte value on a
little-endian host. -/
def toBytesLE : Nat → Nat → List Nat
  | 0, _ => []
  | w + 1, x => x % 256 :: toBytesLE w (x / 256)

/-- Recompose a little-endian byte list into a bit pattern. -/
def ofBytesLE : List Nat → Nat
  | [] => 0
  | b :: l => b + 256 * ofBytesLE l

/-- Model of `bs32` (src/cape/pc_io.h line 7): reinterprets its 4-byte operand as an
unsigned 32-bit integer and byte-swaps it with glibc `__bswap_32`, whose
value is the OR of the four byte fields moved to mirrored positions; the
fields are disjoint, so the OR is a sum and each masked shift is a
`div`/`mod` extraction. -/
def bswap_32 (x : Nat) : Nat :=
  x / 2 ^ 24 % 256 + x / 2 ^ 16 % 256 * 2 ^ 8 + x / 2 ^ 8 % 256 * 2 ^ 16 + x % 256 * 2 ^ 24

/-- Model of `bs64` (src/cape/pc_io.h line 8): same for 8-byte operands via glibc
`__bswap_64`, eight mirrored byte fields. -/
def bswap_64 (x : Nat) : Nat :=
  x / 2 ^ 56 % 256 + x / 2 ^ 48 % 256 * 2 ^ 8 + x / 2 ^ 40 % 256 * 2 ^ 16 +
    x / 2 ^ 32 % 256 * 2 ^ 24 + x / 2 ^ 24 % 256 * 2 ^ 32 + x / 2 ^ 16 % 256 * 2 ^ 40 +
    x / 2 ^ 8 % 256 * 2 ^ 48 + x % 256 * 2 ^ 56

/-- A C `float` value, carried as its raw IEEE-754 bit pattern (this is the
reinterpretation `*(unsigned *)&f` that the core applies to every float). -/
structure CFloat where
  bits : Nat
deriving DecidableEq, Repr

/-- A C `double` value, carried as its raw IEEE-754 bit pattern. -/
structure CDouble where
  bits : Nat
deriving DecidableEq, Repr

/-- Modelled from the spec: `swap_single` (declared src/cape/pc_io.h line 17,
body in pc_io.c, not under src/) takes a `float` by value and returns the
float whose bit pattern is the byte reversal of the argument's — "swapping
operates on the raw bit pattern, not the numeric value". -/
def swap_single (f : CFloat) : CFloat :=
  ⟨bswap_32 f.bits⟩

/-- Modelled from the spec: `swap_double` (declared src/cape/pc_io.h line 18,
body in pc_io.c, not under src/), same contract for 8-byte quantities. -/
def swap_double (f : CDouble) : CDouble :=
  ⟨bswap_64 f.bits⟩

theorem toBytesLE_length (w x : Nat) : (toBytesLE w x).length = w := by
  induction w generalizing x with
  | zero => rfl
  | succ w ih => simp [toBytesLE, ih]

theorem toBytesLE_lt (w x : Nat) : ∀ b ∈ toBytesLE w x, b < 256 := by
  induction w generalizing x with
  | zero => simp [toBytesLE]
  | succ w ih =>
    intro b hb
    simp only [toBytesLE, List.mem_cons] at hb
    rcases hb with h | h
    · omega
    · exact ih _ _ h

theorem ofBytesLE_toBytesLE (w x : Nat) (h : x < 2 ^ (8 * w)) :
    ofBytesLE (toBytesLE w x) = x := by
  induction w generalizing x with
  | zero =>
    simp [toBytesLE, ofBytesLE]
    omega
  | succ w ih =>
    have hx : x / 256 < 2 ^ (8 * w) := by
      have : 2 ^ (8 * (w + 1)) = 2 ^ (8 * w) * 256 := by ring
      omega
    simp [toBytesLE, ofBytesLE, ih _ hx]
    omega

theorem toBytesLE_ofBytesLE (l : List Nat) (h : ∀ b ∈ l, b < 256) :
    toBytesLE l.length (ofBytesLE l) = l := by
  induction l with
  | nil => rfl
  | cons b l ih =>
    have hb : b < 256 := h b (List.mem_cons_self b l)
    have hl : ∀ c ∈ l, c < 256 := fun c hc => h c (List.mem_cons_of_mem b hc)
    simp only [List.length_cons, toBytesLE, ofBytesLE]
    have h1 : (b + 256 * ofBytesLE l) % 256 = b := by omega
    have h2 : (b + 256 * ofBytesLE l) / 256 = ofBytesLE l := by omega
    rw [h1, h2, ih hl]

theorem ofBytesLE_lt (l : List Nat) (h : ∀ b ∈ l, b < 256) :
    ofBytesLE l < 2 ^ (8 * l.length) := by
  induction l with
  | nil => simp [ofBytesLE]
  | cons b l ih =>
    have hb : b < 256 := h b (List.mem_cons_self b l)
    have hl : ∀ c ∈ l, c < 256 := fun c hc => h c (List.mem_cons_of_mem b hc)
    have := ih hl
    simp only [ofBytesLE, List.length_cons]
    have : 2 ^ (8 * (l.length + 1)) = 2 ^ (8 * l.length) * 256 := by ring
    omega

/-- The value of `bswap_32` is exactly byte reversal of the 4-byte image. -/
theorem bswap_32_eq_reverse (x : Nat) :
    bswap_32 x = ofBytesLE (toBytesLE 4 x).reverse := by
  simp [bswap_32, toBytesLE, ofBytesLE, Nat.div_div_eq_div_mul]
  ring_nf

/-- The value of `bswap_64` is exactly byte reversal of the 8-byte image. -/
theorem bswap_64_eq_reverse (x : Nat) :
    bswap_64 x = ofBytesLE (toBytesLE 8 x).reverse := by
  simp [bswap_64, toBytesLE, ofBytesLE, Nat.div_div_eq_div_mul]
  ring_nf

theorem toBytesLE_bswap_32 (x : Nat) :
    toBytesLE 4 (bswap_32 x) = (toBytesLE 4 x).reverse := by
  rw [bswap_32_eq_reverse]
  have hlen : (toBytesLE 4 x).reverse.length = 4 := by
    simp [toBytesLE_length]
  have hlt : ∀ b ∈ (toBytesLE 4 x).reverse, b < 256 := by
    intro b hb
    exact toBytesLE_lt 4 x b (List.mem_reverse.mp hb)
  calc toBytesLE 4 (ofBytesLE (toBytesLE 4 x).reverse)
      = toBytesLE (toBytesLE 4 x).reverse.length (ofBytesLE (toBytesLE 4 x).reverse) := by
        rw [hlen]
    _ = (toBytesLE 4 x).reverse := toBytesLE_ofBytesLE _ hlt

theorem toBytesLE_bswap_64 (x : Nat) :
    toBytesLE 8 (bswap_64 x) = (toBytesLE 8 x).reverse := by
  rw [bswap_64_eq_reverse]
  have hlen : (toBytesLE 8 x).reverse.length = 8 := by
    simp [toBytesLE_length]
  have hlt : ∀ b ∈ (toBytesLE 8 x).reverse, b < 256 := by
    intro b hb
    exact toBytesLE_lt 8 x b (List.mem_reverse.mp hb)
  calc toBytesLE 8 (ofBytesLE (toBytesLE 8 x).reverse)
      = toBytesLE (toBytesLE 8 x).reverse.length (ofBytesLE (toBytesLE 8 x).reverse) := by
        rw [hlen]
    _ = (toBytesLE 8 x).reverse := toBytesLE_ofBytesLE _ hlt

theorem bswap_32_involution (x : Nat) (h : x < 2 ^ 32) : bswap_32 (bswap_32 x) = x := by
  rw [bswap_32_eq_reverse (bswap_32 x), toBytesLE_bswap_32, List.reverse_reverse]
  exact ofBytesLE_toBytesLE 4 x h

theorem bswap_64_involution (x : Nat) (h : x < 2 ^ 64) : bswap_64 (bswap_64 x) = x := by
  rw [bswap_64_eq_reverse (bswap_64 x), toBytesLE_bswap_64, List.reverse_reverse]
  exact ofBytesLE_toBytesLE 8 x h

/-- The `w`-byte image of bit pattern `x` laid out in byte order `o`
(little-endian: least significant byte first).  `bytesIn ho w x` is the
in-memory image of `x` on a host of order `ho`; `bytesIn tgt w x` is the wire
image of `x` in target order `tgt`. -/
def bytesIn : Endian → Nat → Nat → List Nat
  | .little, w, x => toBytesLE w x
  | .big, w, x => (toBytesLE w x).reverse

/-- Recompose a byte list laid out in order `o` into a bit pattern. -/
def ofBytesIn : Endian → List Nat → Nat
  | .little, l => ofBytesLE l
  | .big, l => ofBytesLE l.reverse

/-- Width-directed byte swap: the element width (4 or 8 bytes) selects
whether the normalizer treats the value as 32-bit (`bs32`) or 64-bit
(`bs64`). -/
def swapW (w x : Nat) : Nat :=
  if w = 8 then bswap_64 x else bswap_32 x

/-- Conditional swap, decided once per call: the value passes unchanged when
the target order equals the host order (the swap is skipped) and is
byte-swapped otherwise. -/
def hostSwap (ho tgt : Endian) (w x : Nat) : Nat :=
  if tgt = ho then x else swapW w x

/-- Modelled from the spec: the record's payload byte count
`n = (sum of per-array lengths) * element_width` (`np_size` times the element
width in pc_io.c, not under src/). -/
def recordLength (w : Nat) (arrays : List (List Nat)) : Nat :=
  w * (arrays.map List.length).sum

/-- Modelled from the spec: the payload of `pc_WriteRecord_*` (pc_io.c, not
under src/) — for each row index `i` from 0 to length−1, for each array in
declared order, element `i` is conditionally byte-swapped and its raw
in-memory bytes are appended. -/
def recordPayload (ho tgt : Endian) (w : Nat) (arrays : List (List Nat)) : List Nat :=
  (List.range (arrays.headD []).length).flatMap fun i =>
    arrays.flatMap fun A => bytesIn ho w (hostSwap ho tgt w (A.getD i 0))

/-- Modelled from the spec: the three sink writes of one record — 4-byte
length prefix (`pc_Write_b4_i` / `pc_Write_lb4_i`: the count conditionally
swapped and written as a 4-byte integer), payload, and the same 4-byte
length as suffix. -/
def recordChunks (ho tgt : Endian) (w : Nat) (arrays : List (List Nat)) : List (List Nat) :=
  [bytesIn ho 4 (hostSwap ho tgt 4 (recordLength w arrays)),
   recordPayload ho tgt w arrays,
   bytesIn ho 4 (hostSwap ho tgt 4 (recordLength w arrays))]

/-- Modelled from the spec: `write_record` (the common body of the
`pc_WriteRecord_*` family in pc_io.c, not under src/) — every byte emitted
to the sink by one successful record write, in order. `ho` is the host order
reported by `is_le`, `tgt` the target order, `w` the element width; each
array is a list of raw element bit patterns. -/
def write_record (ho tgt : Endian) (w : Nat) (arrays : List (List Nat)) : List Nat :=
  (recordChunks ho tgt w arrays).flatten

/-- Big-endian 4-byte float record writers (arities 1–3); arrays carry the
elements' raw bit patterns. -/
def pc_WriteRecord_b4_f1 (ho : Endian) (a1 : List Nat) : List Nat :=
  write_record ho .big 4 [a1]

def pc_WriteRecord_b4_f2 (ho : Endian) (a1 a2 : List Nat) : List Nat :=
  write_record ho .big 4 [a1, a2]

def pc_WriteRecord_b4_f3 (ho : Endian) (a1 a2 a3 : List Nat) : List Nat :=
  write_record ho .big 4 [a1, a2, a3]

/-- Big-endian 4-byte integer record writers (arities 1–2). -/
def pc_WriteRecord_b4_i1 (ho : Endian) (a1 : List Nat) : List Nat :=
  write_record ho .big 4 [a1]

def pc_WriteRecord_b4_i2 (ho : Endian) (a1 a2 : List Nat) : List Nat :=
  write_record ho .big 4 [a1, a2]

/-- Big-endian 8-byte (double) record writers (arities 1–2 only). -/
def pc_WriteRecord_b8_f1 (ho : Endian) (a1 : List Nat) : List Nat :=
  write_record ho .big 8 [a1]

def pc_WriteRecord_b8_f2 (ho : Endian) (a1 a2 : List Nat) : List Nat :=
  write_record ho .big 8 [a1, a2]

/-- Little-endian 4-byte float record writers (arities 1–3). -/
def pc_WriteRecord_lb4_f1 (ho : Endian) (a1 : List Nat) : List Nat :=
  write_record ho .little 4 [a1]

def pc_WriteRecord_lb4_f2 (ho : Endian) (a1 a2 : List Nat) : List Nat :=
  write_record ho .little 4 [a1, a2]

def pc_WriteRecord_lb4_f3 (ho : Endian) (a1 a2 a3 : List Nat) : List Nat :=
  write_record ho .little 4 [a1, a2, a3]

/-- Little-endian 4-byte integer record writers (arities 1–2). -/
def pc_WriteRecord_lb4_i1 (ho : Endian) (a1 : List Nat) : List Nat :=
  write_record ho .little 4 [a1]

def pc_WriteRecord_lb4_i2 (ho : Endian) (a1 a2 : List Nat) : List Nat :=
  write_record ho .little 4 [a1, a2]

/-- Little-endian 8-byte (double) record writers (arities 1–2 only). -/
def pc_WriteRecord_lb8_f1 (ho : Endian) (a1 : List Nat) : List Nat :=
  write_record ho .little 8 [a1]

def pc_WriteRecord_lb8_f2 (ho : Endian) (a1 a2 : List Nat) : List Nat :=
  write_record ho .little 8 [a1, a2]

/-- Element kind of a writer entry point: `f` for float/coordinate records,
`i` for integer/index records. -/
inductive ElemKind where
  | f : ElemKind
  | i : ElemKind
deriving DecidableEq, Repr

/-- The writer dispatch surface declared in src/cape/pc_io.h lines 25–42:
one `(endianness, element width, element kind, arity)` tuple per declared
`pc_WriteRecord_*` entry point, transcribed in declaration order. -/
def declaredWriters : List (Endian × Nat × ElemKind × Nat) :=
  [(.big, 4, .f, 1), (.big, 4, .f, 2), (.big, 4, .f, 3),
   (.big, 4, .i, 1), (.big, 4, .i, 2),
   (.big, 8, .f, 1), (.big, 8, .f, 2),
   (.little, 4, .f, 1), (.little, 4, .f, 2), (.little, 4, .f, 3),
   (.little, 4, .i, 1), (.little, 4, .i, 2),
   (.little, 8, .f, 1), (.little, 8, .f, 2)]

/-- Modelled from the spec: one attempt per sink write (chunk), starting at
write index `i` of the sink's success schedule.  A failed `fwrite` stops the
call immediately — no retry, no bytes recorded for the failed chunk — and
the failure is reported; if every chunk is accepted the call succeeds and
the sink received all bytes in order. -/
def writeChunksFrom (sink : Nat → Bool) : Nat → List (List Nat) → Bool × List Nat
  | _, [] => (true, [])
  | i, c :: cs =>
    if sink i then
      let r := writeChunksFrom sink (i + 1) cs
      (r.fst, c ++ r.snd)
    else (false, [])

/-- Modelled from the spec: a record write against a fallible sink.  `sink j`
tells whether the j-th underlying write of this call succeeds.  Returns the
success flag reported to the caller and the bytes the sink accepted. -/
def write_record_run (sink : Nat → Bool) (ho tgt : Endian) (w : Nat)
    (arrays : List (List Nat)) : Bool × List Nat :=
  writeChunksFrom sink 0 (recordChunks ho tgt w arrays)

/-- Split a byte list into consecutive groups of `w` bytes. -/
def chunks (w : Nat) (l : List Nat) : List (List Nat) :=
  if h : w = 0 ∨ l = [] then []
  else l.take w :: chunks w (l.drop w)
termination_by l.length
decreasing_by
  push_neg at h
  have := List.length_pos_of_ne_nil h.2
  simp only [List.length_drop]
  omega

/-- Undo row-major interleaving: rebuild `k` column arrays from the flat
row-major element list. -/
def deinterleave (k : Nat) (l : List Nat) : List (List Nat) :=
  if h : k = 0 ∨ l = [] then List.replicate k []
  else List.zipWith List.cons (l.take k) (deinterleave k (l.drop k))
termination_by l.length
decreasing_by
  push_neg at h
  have := List.length_pos_of_ne_nil h.2
  simp only [List.length_drop]
  omega

/-- Modelled from the spec: the inverse transform of a record stream —
parse the 4-byte length prefix in target order, take that many payload
bytes, check that the 4-byte suffix mirrors the prefix and that the stream
ends there, split the payload into element_width-byte groups, de-swap
(decode from target order) each element, and de-interleave the row-major
element list into `k` arrays. -/
def read_record (tgt : Endian) (w k : Nat) (s : List Nat) : Option (List (List Nat)) :=
  if s.length < 8 then none
  else
    let n := ofBytesIn tgt (s.take 4)
    if s.length = 8 + n ∧ s.drop (4 + n) = s.take 4 then
      some (deinterleave k (((chunks w ((s.drop 4).take n)).map (ofBytesIn tgt))))
    else none

/-- A C store mapping variable names to the raw bit patterns they hold. -/
def Store : Type := String → Nat

/-- Point update of a store. -/
def updateStore (s : Store) (v : String) (x : Nat) : Store :=
  fun u => if u = v then x else s u

/-- The macro `bs32(x)` as a state transformer (src/cape/pc_io.h line 7): the macro
reinterprets its operand as a 32-bit unsigned integer and overwrites that
operand, in place, with the swapped pattern. -/
def bs32_exec (s : Store) (v : String) : Store :=
  updateStore s v (bswap_32 (s v))

/-- The macro `bs64(x)` as a state transformer (src/cape/pc_io.h line 8). -/
def bs64_exec (s : Store) (v : String) : Store :=
  updateStore s v (bswap_64 (s v))

/-- A call `swap_single(x)` on a store: the argument is passed by value
(`const float f`), so the call leaves the store untouched and communicates
only through its return value. -/
def swap_single_call (s : Store) (v : String) : Store × CFloat :=
  (s, swap_single ⟨s v⟩)

/-- A call `swap_double(x)` on a store, by-value argument as well. -/
def swap_double_call (s : Store) (v : String) : Store × CDouble :=
  (s, swap_double ⟨s v⟩)

/-- The flat row-major element sequence of a record: row 0's element from
each array in order, then row 1's, and so on. -/
def rowMajor (arrays : List (List Nat)) (L : Nat) : List Nat :=
  (List.range L).flatMap fun i => arrays.map fun A => A.getD i 0

theorem bytesIn_length (o : Endian) (w x : Nat) : (bytesIn o w x).length = w := by
  cases o <;> simp [bytesIn, toBytesLE_length]

theorem bytesIn_lt (o : Endian) (w x : Nat) : ∀ b ∈ bytesIn o w x, b < 256 := by
  cases o with
  | little => exact toBytesLE_lt w x
  | big =>
    intro b hb
    exact toBytesLE_lt w x b (List.mem_reverse.mp hb)

theorem ofBytesIn_bytesIn (o : Endian) (w x : Nat) (h : x < 2 ^ (8 * w)) :
    ofBytesIn o (bytesIn o w x) = x := by
  cases o with
  | little => exact ofBytesLE_toBytesLE w x h
  | big =>
    simp only [ofBytesIn, bytesIn, List.reverse_reverse]
    exact ofBytesLE_toBytesLE w x h

/-- Conditionally swapping on the host and then dumping host-memory bytes is
the same as laying the value out directly in the target order. -/
theorem bytesIn_hostSwap (ho tgt : Endian) (w x : Nat) (hw : w = 4 ∨ w = 8) :
    bytesIn ho w (hostSwap ho tgt w x) = bytesIn tgt w x := by
  unfold hostSwap
  by_cases h : tgt = ho
  · subst h
    simp
  · rw [if_neg h]
    rcases hw with rfl | rfl <;>
      cases ho <;> cases tgt <;>
        simp_all [swapW, bytesIn, toBytesLE_bswap_32, toBytesLE_bswap_64, List.reverse_reverse]

/-- The payload equals the row-major element sequence, each element laid out
in the target byte order. -/
theorem recordPayload_eq (ho tgt : Endian) (w : Nat) (arrays : List (List Nat))
    (hw : w = 4 ∨ w = 8) :
    recordPayload ho tgt w arrays =
      (rowMajor arrays (arrays.headD []).length).flatMap (bytesIn tgt w) := by
  unfold recordPayload rowMajor
  rw [List.flatMap_assoc]
  have hfun : ∀ y : Nat, bytesIn ho w (hostSwap ho tgt w y) = bytesIn tgt w y :=
    fun y => bytesIn_hostSwap ho tgt w y hw
  simp only [List.flatMap_map, hfun]

theorem flatMap_length_const {α : Type} (l : List α) (f : α → List Nat) (w : Nat)
    (hf : ∀ x ∈ l, (f x).length = w) : (l.flatMap f).length = l.length * w := by
  rw [List.length_flatMap]
  have : List.map (List.length ∘ f) l = List.map (fun _ => w) l :=
    List.map_congr_left fun x hx => hf x hx
  rw [this, List.map_const', List.sum_replicate, smul_eq_mul]

theorem recordPayload_length (ho tgt : Endian) (w : Nat) (arrays : List (List Nat)) :
    (recordPayload ho tgt w arrays).length =
      (arrays.headD []).length * (arrays.length * w) := by
  unfold recordPayload
  rw [flatMap_length_const _ _ (arrays.length * w) ?_, List.length_range]
  intro i _
  exact flatMap_length_const _ _ w fun A _ => bytesIn_length ho w _

/-- A record's byte stream in closed form: length bytes in target order,
payload in target order, length bytes again. -/
theorem write_record_eq (ho tgt : Endian) (w : Nat) (arrays : List (List Nat))
    (hw : w = 4 ∨ w = 8) :
    write_record ho tgt w arrays =
      bytesIn tgt 4 (recordLength w arrays) ++
        (rowMajor arrays (arrays.headD []).length).flatMap (bytesIn tgt w) ++
        bytesIn tgt 4 (recordLength w arrays) := by
  unfold write_record recordChunks
  rw [bytesIn_hostSwap ho tgt 4 _ (Or.inl rfl), recordPayload_eq ho tgt w arrays hw]
  simp [List.flatten, List.append_assoc]

theorem rowMajor_length (arrays : List (List Nat)) (L : Nat) :
    (rowMajor arrays L).length = L * arrays.length := by
  unfold rowMajor
  rw [flatMap_length_const _ _ arrays.length fun i _ => List.length_map arrays _,
    List.length_range]

theorem chunks_nil (w : Nat) : chunks w [] = [] := by
  rw [chunks]
  simp

theorem chunks_flatMap {α : Type} (w : Nat) (hw : 0 < w) (l : List α) (f : α → List Nat)
    (hf : ∀ x ∈ l, (f x).length = w) : chunks w (l.flatMap f) = l.map f := by
  induction l with
  | nil => simp [chunks_nil]
  | cons a l ih =>
    have ha : (f a).length = w := hf a (List.mem_cons_self a l)
    have hane : f a ≠ [] := by
      intro hcon
      rw [hcon] at ha
      simp at ha
      omega
    rw [List.flatMap_cons, chunks]
    rw [dif_neg (by
      push_neg
      refine ⟨by omega, ?_⟩
      intro hcon
      exact hane (List.append_eq_nil.mp hcon).1)]
    rw [List.take_left' ha, List.drop_left' ha, List.map_cons,
      ih fun x hx => hf x (List.mem_cons_of_mem a hx)]

theorem deinterleave_nil (k : Nat) : deinterleave k [] = List.replicate k [] := by
  rw [deinterleave]
  simp

theorem all_nil_eq_replicate (arrays : List (List Nat)) (h : ∀ A ∈ arrays, A.length = 0) :
    arrays = List.replicate arrays.length [] := by
  induction arrays with
  | nil => rfl
  | cons A rest ih =>
    have hA : A = [] :=
      List.length_eq_zero.mp (h A (List.mem_cons_self A rest))
    rw [List.length_cons, List.replicate_succ, ← ih fun B hB => h B (List.mem_cons_of_mem A hB),
      hA]

theorem getD_succ_tail (A : List Nat) (i : Nat) : A.getD (i + 1) 0 = A.tail.getD i 0 := by
  cases A <;> simp [List.getD]

theorem rowMajor_succ (arrays : List (List Nat)) (L : Nat) :
    rowMajor arrays (L + 1) =
      (arrays.map fun A => A.getD 0 0) ++ rowMajor (arrays.map List.tail) L := by
  unfold rowMajor
  rw [List.range_succ_eq_map, List.flatMap_cons, List.flatMap_map]
  congr 1
  have hfun : ∀ (i : Nat), (arrays.map fun A => A.getD (Nat.succ i) 0) =
      (arrays.map List.tail).map fun A => A.getD i 0 := by
    intro i
    rw [List.map_map]
    exact List.map_congr_left fun A _ => getD_succ_tail A i
  simp only [hfun]

theorem zipWith_cons_head_tail (arrays : List (List Nat)) (h : ∀ A ∈ arrays, A ≠ []) :
    List.zipWith List.cons (arrays.map fun A => A.getD 0 0) (arrays.map List.tail) = arrays := by
  induction arrays with
  | nil => rfl
  | cons A rest ih =>
    obtain ⟨a, t, rfl⟩ := List.exists_cons_of_ne_nil (h A (List.mem_cons_self A rest))
    simp only [List.map_cons, List.zipWith_cons_cons, List.getD_cons_zero, List.tail_cons]
    rw [ih fun B hB => h B (List.mem_cons_of_mem _ hB)]

/-- De-interleaving the row-major element sequence of `k` equal-length
arrays recovers the arrays. -/
theorem deinterleave_rowMajor (L : Nat) (arrays : List (List Nat))
    (h : ∀ A ∈ arrays, A.length = L) :
    deinterleave arrays.length (rowMajor arrays L) = arrays := by
  induction L generalizing arrays with
  | zero =>
    have : rowMajor arrays 0 = [] := by simp [rowMajor]
    rw [this, deinterleave_nil, ← all_nil_eq_replicate arrays h]
  | succ L ih =>
    cases harr : arrays with
    | nil =>
      have : rowMajor [] (L + 1) = [] := by simp [rowMajor]
      rw [this, deinterleave_nil]
      rfl
    | cons A0 rest =>
      rw [← harr]
      have hne : arrays ≠ [] := by simp [harr]
      have hAne : ∀ A ∈ arrays, A ≠ [] := by
        intro A hA hcon
        have := h A hA
        rw [hcon] at this
        simp at this
      have hklen : (arrays.map fun A => A.getD 0 0).length = arrays.length :=
        List.length_map arrays _
      have hkpos : arrays.length ≠ 0 := by
        simp [harr]
      rw [rowMajor_succ, deinterleave]
      rw [dif_neg (by
        push_neg
        refine ⟨hkpos, ?_⟩
        intro hcon
        have h0 : (arrays.map fun A => A.getD 0 0) = [] := (List.append_eq_nil.mp hcon).1
        have := congrArg List.length h0
        rw [hklen] at this
        exact hkpos this)]
      rw [List.take_left' hklen, List.drop_left' hklen]
      have htails : ∀ T ∈ arrays.map List.tail, T.length = L := by
        intro T hT
        obtain ⟨A, hA, rfl⟩ := List.mem_map.mp hT
        have := h A hA
        simp [List.length_tail, this]
      have hlenmap : arrays.length = (arrays.map List.tail).length :=
        (List.length_map arrays _).symm
      rw [hlenmap, ih (arrays.map List.tail) htails]
      exact zipWith_cons_head_tail arrays hAne

/-- Under the equal-length precondition, the payload byte count is
`element_width * arity * length`. -/
theorem sum_lengths (arrays : List (List Nat)) (L : Nat)
    (h : ∀ A ∈ arrays, A.length = L) :
    (arrays.map List.length).sum = arrays.length * L := by
  have : arrays.map List.length = arrays.map fun _ => L :=
    List.map_congr_left fun A hA => h A hA
  rw [this, List.map_const', List.sum_replicate, smul_eq_mul]

theorem head_length (arrays : List (List Nat)) (L : Nat)
    (hlen : ∀ A ∈ arrays, A.length = L) :
    ∀ A ∈ arrays, A.length = (arrays.headD []).length := by
  intro A hA
  cases arrays with
  | nil => simp at hA
  | cons B rest =>
    rw [hlen A hA, List.headD_cons]
    exact (hlen B (List.mem_cons_self B rest)).symm

theorem rowMajor_mem_lt (arrays : List (List Nat)) (c : Nat)
    (hlen : ∀ A ∈ arrays, A.length = (arrays.headD []).length)
    (helem : ∀ A ∈ arrays, ∀ x ∈ A, x < c) :
    ∀ y ∈ rowMajor arrays (arrays.headD []).length, y < c := by
  intro y hy
  unfold rowMajor at hy
  obtain ⟨i, hi, hy⟩ := List.mem_flatMap.mp hy
  obtain ⟨A, hA, rfl⟩ := List.mem_map.mp hy
  have hiL : i < A.length := by
    rw [hlen A hA]
    exact List.mem_range.mp hi
  rw [List.getD_eq_getElem A 0 hiL]
  exact helem A hA _ (List.getElem_mem hiL)

/-- Round trip: reading back the byte stream of a record write with the
inverse transform recovers every array bit-for-bit. -/
theorem read_write_record (ho tgt : Endian) (w L : Nat) (arrays : List (List Nat))
    (hw : w = 4 ∨ w = 8)
    (hlen : ∀ A ∈ arrays, A.length = L)
    (helem : ∀ A ∈ arrays, ∀ x ∈ A, x < 2 ^ (8 * w))
    (hn : recordLength w arrays < 2 ^ 31) :
    read_record tgt w arrays.length (write_record ho tgt w arrays) = some arrays := by
  have hlen' := head_length arrays L hlen
  have hnval : recordLength w arrays =
      w * (arrays.length * (arrays.headD []).length) := by
    rw [recordLength, sum_lengths arrays _ hlen']
  have hplen : ((rowMajor arrays (arrays.headD []).length).flatMap (bytesIn tgt w)).length =
      recordLength w arrays := by
    rw [flatMap_length_const _ _ w fun x _ => bytesIn_length tgt w x, rowMajor_length, hnval]
    ring
  have hlenB : (bytesIn tgt 4 (recordLength w arrays)).length = 4 :=
    bytesIn_length tgt 4 _
  rw [write_record_eq ho tgt w arrays hw]
  set B := bytesIn tgt 4 (recordLength w arrays) with hB
  set P := (rowMajor arrays (arrays.headD []).length).flatMap (bytesIn tgt w) with hP
  have htake : (B ++ P ++ B).take 4 = B := by
    rw [List.append_assoc]
    exact List.take_left' hlenB
  have hdrop4 : (B ++ P ++ B).drop 4 = P ++ B := by
    rw [List.append_assoc]
    exact List.drop_left' hlenB
  have hlength : (B ++ P ++ B).length = 8 + recordLength w arrays := by
    simp only [List.length_append, hlenB, hplen]
    omega
  have hdropN : (B ++ P ++ B).drop (4 + recordLength w arrays) = B :=
    List.drop_left' (by simp only [List.length_append, hlenB, hplen])
  have hofn : ofBytesIn tgt B = recordLength w arrays := by
    rw [hB]
    refine ofBytesIn_bytesIn tgt 4 _ ?_
    have h32 : (2 : Nat) ^ (8 * 4) = 2 ^ 32 := by norm_num
    have h31 : (2 : Nat) ^ 31 < 2 ^ 32 := by norm_num
    omega
  rw [read_record, htake, hofn, hlength]
  rw [if_neg (by omega)]
  rw [if_pos ⟨rfl, by rw [hdropN]⟩]
  rw [hdrop4, List.take_left' hplen, hP]
  rw [chunks_flatMap w (by omega) _ _ fun x _ => bytesIn_length tgt w x]
  rw [List.map_map]
  have hid : List.map (ofBytesIn tgt ∘ bytesIn tgt w) (rowMajor arrays (arrays.headD []).length) =
      rowMajor arrays (arrays.headD []).length := by
    rw [show List.map (ofBytesIn tgt ∘ bytesIn tgt w)
          (rowMajor arrays (arrays.headD []).length) =
        List.map id (rowMajor arrays (arrays.headD []).length) from
      List.map_congr_left fun y hy =>
        ofBytesIn_bytesIn tgt w y (rowMajor_mem_lt arrays _ hlen' helem y hy)]
    exact List.map_id _
  rw [hid, deinterleave_rowMajor _ arrays hlen']

theorem payload_length_of_len (ho tgt : Endian) (w L : Nat) (arrays : List (List Nat))
    (hlen : ∀ A ∈ arrays, A.length = L) :
    (recordPayload ho tgt w arrays).length = L * w * arrays.length := by
  rw [recordPayload_length]
  cases arrays with
  | nil => simp
  | cons A rest =>
    have hA : A.length = L := hlen A (List.mem_cons_self A rest)
    simp only [List.headD_cons, hA]
    ring

theorem write_record_length (ho tgt : Endian) (w L : Nat) (arrays : List (List Nat))
    (hlen : ∀ A ∈ arrays, A.length = L) :
    (write_record ho tgt w arrays).length = 8 + L * w * arrays.length := by
  have hp := payload_length_of_len ho tgt w L arrays hlen
  unfold write_record recordChunks
  simp [List.flatten, List.length_append, bytesIn_length, hp]
  ring

/-- Success of a record write is exactly the success of each of its three
sink writes (prefix, payload, suffix): a failed sink write surfaces as a
failure report with no retry, and an all-success run reports success with
every record byte delivered. -/
theorem write_record_run_spec (sink : Nat → Bool) (ho tgt : Endian) (w : Nat)
    (arrays : List (List Nat)) :
    (write_record_run sink ho tgt w arrays).fst = (sink 0 && sink 1 && sink 2) ∧
      ((write_record_run sink ho tgt w arrays).fst = true →
        (write_record_run sink ho tgt w arrays).snd = write_record ho tgt w arrays) := by
  unfold write_record_run write_record recordChunks
  cases h0 : sink 0 <;> cases h1 : sink 1 <;> cases h2 : sink 2 <;>
    simp [writeChunksFrom, h0, h1, h2, List.flatten]

/-- C1: a successful record write of `k` same-length arrays of length `L`
with element width `w ∈ {4, 8}` emits exactly `8 + L*w*k` bytes: a 4-byte
length prefix, `L*w*k` payload bytes, and a 4-byte length suffix. -/
theorem claim_C1 (ho tgt : Endian) (w L : Nat) (arrays : List (List Nat))
    (hw : w = 4 ∨ w = 8) (hlen : ∀ A ∈ arrays, A.length = L) :
    (write_record ho tgt w arrays).length = 8 + L * w * arrays.length ∧
      (recordPayload ho tgt w arrays).length = L * w * arrays.length :=
  ⟨write_record_length ho tgt w L arrays hlen,
   payload_length_of_len ho tgt w L arrays hlen⟩

theorem claim_C1_witness :
    (((4 : Nat) = 4 ∨ (4 : Nat) = 8) ∧ ∀ A ∈ [[1, 2, 3], [4, 5, 6]], A.length = 3) ∧
      (write_record Endian.little Endian.big 4 [[1, 2, 3], [4, 5, 6]]).length =
          8 + 3 * 4 * 2 ∧
        (recordPayload Endian.little Endian.big 4 [[1, 2, 3], [4, 5, 6]]).length =
          3 * 4 * 2 :=
  ⟨⟨Or.inl rfl, by decide⟩,
   claim_C1 Endian.little Endian.big 4 3 [[1, 2, 3], [4, 5, 6]] (Or.inl rfl) (by decide)⟩

/-- C2: for arrays of 32-bit or 64-bit raw bit patterns (integers, floats,
NaN and infinity payloads included) and either target byte order, writing a
record and reading the stream back with the inverse transform reproduces the
original arrays bit-for-bit. -/
theorem claim_C2 (ho tgt : Endian) (w k L : Nat) (arrays : List (List Nat))
    (hw : w = 4 ∨ w = 8) (hk : arrays.length = k)
    (hlen : ∀ A ∈ arrays, A.length = L)
    (helem : ∀ A ∈ arrays, ∀ x ∈ A, x < 2 ^ (8 * w))
    (hn : recordLength w arrays < 2 ^ 31) :
    read_record tgt w k (write_record ho tgt w arrays) = some arrays := by
  subst hk
  exact read_write_record ho tgt w L arrays hw hlen helem hn

theorem claim_C2_witness :
    (((4 : Nat) = 4 ∨ (4 : Nat) = 8) ∧
        ([[0x7fc00001, 0x7f800000], [0xff800000, 0x3f800000]] :
            List (List Nat)).length = 2 ∧
        (∀ A ∈ ([[0x7fc00001, 0x7f800000], [0xff800000, 0x3f800000]] : List (List Nat)),
          A.length = 2) ∧
        (∀ A ∈ ([[0x7fc00001, 0x7f800000], [0xff800000, 0x3f800000]] : List (List Nat)),
          ∀ x ∈ A, x < 2 ^ (8 * 4)) ∧
        recordLength 4 [[0x7fc00001, 0x7f800000], [0xff800000, 0x3f800000]] < 2 ^ 31) ∧
      read_record Endian.big 4 2
          (write_record Endian.little Endian.big 4
            [[0x7fc00001, 0x7f800000], [0xff800000, 0x3f800000]]) =
        some [[0x7fc00001, 0x7f800000], [0xff800000, 0x3f800000]] :=
  ⟨⟨Or.inl rfl, by decide, by decide, by decide, by decide⟩,
   claim_C2 Endian.little Endian.big 4 2 2
     [[0x7fc00001, 0x7f800000], [0xff800000, 0x3f800000]]
     (Or.inl rfl) (by decide) (by decide) (by decide) (by decide)⟩

/-- C3: for every record, the 4-byte length prefix equals the 4-byte length
suffix, and both encode the payload byte count `n` in the target byte order,
under the precondition that `n` fits in a 32-bit signed integer. -/
theorem claim_C3 (ho tgt : Endian) (w L : Nat) (arrays : List (List Nat))
    (hw : w = 4 ∨ w = 8) (hlen : ∀ A ∈ arrays, A.length = L)
    (hn : recordLength w arrays < 2 ^ 31) :
    (write_record ho tgt w arrays).take 4 =
        (write_record ho tgt w arrays).drop (4 + recordLength w arrays) ∧
      (write_record ho tgt w arrays).take 4 = bytesIn tgt 4 (recordLength w arrays) ∧
      ofBytesIn tgt ((write_record ho tgt w arrays).take 4) = recordLength w arrays := by
  have hlen' := head_length arrays L hlen
  have hnval : recordLength w arrays =
      w * (arrays.length * (arrays.headD []).length) := by
    rw [recordLength, sum_lengths arrays _ hlen']
  have hplen : ((rowMajor arrays (arrays.headD []).length).flatMap (bytesIn tgt w)).length =
      recordLength w arrays := by
    rw [flatMap_length_const _ _ w fun x _ => bytesIn_length tgt w x, rowMajor_length, hnval]
    ring
  have hlenB : (bytesIn tgt 4 (recordLength w arrays)).length = 4 :=
    bytesIn_length tgt 4 _
  rw [write_record_eq ho tgt w arrays hw]
  have htake : (bytesIn tgt 4 (recordLength w arrays) ++
      (rowMajor arrays (arrays.headD []).length).flatMap (bytesIn tgt w) ++
      bytesIn tgt 4 (recordLength w arrays)).take 4 = bytesIn tgt 4 (recordLength w arrays) := by
    rw [List.append_assoc]
    exact List.take_left' hlenB
  have hdropN : (bytesIn tgt 4 (recordLength w arrays) ++
      (rowMajor arrays (arrays.headD []).length).flatMap (bytesIn tgt w) ++
      bytesIn tgt 4 (recordLength w arrays)).drop (4 + recordLength w arrays) =
      bytesIn tgt 4 (recordLength w arrays) :=
    List.drop_left' (by simp only [List.length_append, hlenB, hplen])
  refine ⟨?_, ?_, ?_⟩
  · rw [htake, hdropN]
  · rw [htake]
  · rw [htake]
    refine ofBytesIn_bytesIn tgt 4 _ ?_
    have h32 : (2 : Nat) ^ (8 * 4) = 2 ^ 32 := by norm_num
    have h31 : (2 : Nat) ^ 31 < 2 ^ 32 := by norm_num
    omega

theorem claim_C3_witness :
    (((4 : Nat) = 4 ∨ (4 : Nat) = 8) ∧
        (∀ A ∈ ([[10, 20], [30, 40]] : List (List Nat)), A.length = 2) ∧
        recordLength 4 [[10, 20], [30, 40]] < 2 ^ 31) ∧
      (write_record Endian.big Endian.little 4 [[10, 20], [30, 40]]).take 4 =
          (write_record Endian.big Endian.little 4 [[10, 20], [30, 40]]).drop
            (4 + recordLength 4 [[10, 20], [30, 40]]) ∧
        (write_record Endian.big Endian.little 4 [[10, 20], [30, 40]]).take 4 =
          bytesIn Endian.little 4 (recordLength 4 [[10, 20], [30, 40]]) ∧
        ofBytesIn Endian.little
            ((write_record Endian.big Endian.little 4 [[10, 20], [30, 40]]).take 4) =
          recordLength 4 [[10, 20], [30, 40]] :=
  ⟨⟨Or.inl rfl, by decide, by decide⟩,
   claim_C3 Endian.big Endian.little 4 2 [[10, 20], [30, 40]]
     (Or.inl rfl) (by decide) (by decide)⟩

/-- C4: the payload is emitted in row-major interleaved order with each
element `element_width` bytes in the target byte order; in particular
writing the index arrays `[1,2,3]`, `[4,5,6]`, `[7,8,9]` as 4-byte
big-endian integers yields the prefix `0x00000024`, the nine big-endian
integers `1,4,7,2,5,8,3,6,9`, and the same suffix — on either host. -/
theorem claim_C4 (ho tgt : Endian) (w : Nat) (arrays : List (List Nat))
    (hw : w = 4 ∨ w = 8) :
    recordPayload ho tgt w arrays =
        (rowMajor arrays (arrays.headD []).length).flatMap (bytesIn tgt w) ∧
      write_record ho Endian.big 4 [[1, 2, 3], [4, 5, 6], [7, 8, 9]] =
        [0, 0, 0, 36,
         0, 0, 0, 1, 0, 0, 0, 4, 0, 0, 0, 7,
         0, 0, 0, 2, 0, 0, 0, 5, 0, 0, 0, 8,
         0, 0, 0, 3, 0, 0, 0, 6, 0, 0, 0, 9,
         0, 0, 0, 36] :=
  ⟨recordPayload_eq ho tgt w arrays hw, by cases ho <;> decide⟩

theorem claim_C4_witness :
    ((4 : Nat) = 4 ∨ (4 : Nat) = 8) ∧
      (recordPayload Endian.little Endian.big 4 [[5], [6]] =
          (rowMajor [[5], [6]] (([[5], [6]] : List (List Nat)).headD []).length).flatMap
            (bytesIn Endian.big 4) ∧
        write_record Endian.little Endian.big 4 [[1, 2, 3], [4, 5, 6], [7, 8, 9]] =
          [0, 0, 0, 36,
           0, 0, 0, 1, 0, 0, 0, 4, 0, 0, 0, 7,
           0, 0, 0, 2, 0, 0, 0, 5, 0, 0, 0, 8,
           0, 0, 0, 3, 0, 0, 0, 6, 0, 0, 0, 9,
           0, 0, 0, 36]) :=
  ⟨Or.inl rfl, claim_C4 Endian.little Endian.big 4 [[5], [6]] (Or.inl rfl)⟩

/-- C5: byte swapping is an involution on every 4-byte and every 8-byte raw
value — `bs32(bs32(x)) = x`, `bs64(bs64(x)) = x`,
`swap_single(swap_single(f)) = f` and `swap_double(swap_double(d)) = d` at
the level of bit patterns. -/
theorem claim_C5 (x y : Nat) (f : CFloat) (d : CDouble)
    (hx : x < 2 ^ 32) (hy : y < 2 ^ 64)
    (hf : f.bits < 2 ^ 32) (hd : d.bits < 2 ^ 64) :
    bswap_32 (bswap_32 x) = x ∧ bswap_64 (bswap_64 y) = y ∧
      swap_single (swap_single f) = f ∧ swap_double (swap_double d) = d := by
  refine ⟨bswap_32_involution x hx, bswap_64_involution y hy, ?_, ?_⟩
  · cases f with
    | mk b => simp [swap_single, bswap_32_involution b hf]
  · cases d with
    | mk b => simp [swap_double, bswap_64_involution b hd]

theorem claim_C5_witness :
    ((0x12345678 : Nat) < 2 ^ 32 ∧ (0x0123456789abcdef : Nat) < 2 ^ 64 ∧
        (CFloat.mk 0x7fc00001).bits < 2 ^ 32 ∧
        (CDouble.mk 0xfff0000000000000).bits < 2 ^ 64) ∧
      bswap_32 (bswap_32 0x12345678) = 0x12345678 ∧
        bswap_64 (bswap_64 0x0123456789abcdef) = 0x0123456789abcdef ∧
        swap_single (swap_single (CFloat.mk 0x7fc00001)) = CFloat.mk 0x7fc00001 ∧
        swap_double (swap_double (CDouble.mk 0xfff0000000000000)) =
          CDouble.mk 0xfff0000000000000 :=
  ⟨⟨by decide, by decide, by decide, by decide⟩,
   claim_C5 0x12345678 0x0123456789abcdef (CFloat.mk 0x7fc00001)
     (CDouble.mk 0xfff0000000000000) (by decide) (by decide) (by decide) (by decide)⟩

/-- C6: each swap returns the value whose bit pattern is exactly the byte
reversal of the input's bit pattern, and the float swaps act on the raw
pattern through the same integer byte permutation (`bs32`/`bs64`), never
through floating-point arithmetic — the embedding carries floats as bit
patterns only. -/
theorem claim_C6 (x y : Nat) (f : CFloat) (d : CDouble) :
    toBytesLE 4 (bswap_32 x) = (toBytesLE 4 x).reverse ∧
      toBytesLE 8 (bswap_64 y) = (toBytesLE 8 y).reverse ∧
      (swap_single f).bits = bswap_32 f.bits ∧
      (swap_double d).bits = bswap_64 d.bits :=
  ⟨toBytesLE_bswap_32 x, toBytesLE_bswap_64 y, rfl, rfl⟩

/-- C7: when the target byte order equals the host byte order, the payload
is byte-for-byte the arrays' native in-memory images in row-major order —
no element's bytes are altered, for any element width. -/
theorem claim_C7 (ho : Endian) (w : Nat) (arrays : List (List Nat)) :
    recordPayload ho ho w arrays =
      (rowMajor arrays (arrays.headD []).length).flatMap (bytesIn ho w) := by
  unfold recordPayload rowMajor
  rw [List.flatMap_assoc]
  have hfun : ∀ x : Nat, hostSwap ho ho w x = x := fun x => if_pos rfl
  simp only [List.flatMap_map, hfun]

/-- C8 counterexample: the header declares no big-endian 8-byte float writer
of arity 3 (`pc_WriteRecord_b8_f3` does not exist), so the dispatch surface
does not contain float writers of arities 1–3 at both widths. -/
theorem claim_C8_counterexample :
    (Endian.big, 8, ElemKind.f, 3) ∉ declaredWriters := by
  decide

/-- C8 (amended): the dispatch surface contains exactly, per endianness,
float writers of arities 1, 2, 3 at 4-byte width, float (double) writers of
arities 1, 2 at 8-byte width, and integer writers of arities 1, 2 at 4-byte
width. -/
theorem claim_C8 (e : Endian) (k : ElemKind) (w a : Nat) :
    (e, w, k, a) ∈ declaredWriters ↔
      (k = ElemKind.f ∧ w = 4 ∧ (a = 1 ∨ a = 2 ∨ a = 3)) ∨
        (k = ElemKind.f ∧ w = 8 ∧ (a = 1 ∨ a = 2)) ∨
        (k = ElemKind.i ∧ w = 4 ∧ (a = 1 ∨ a = 2)) := by
  cases e <;> cases k <;> simp [declaredWriters] <;> omega

/-- C9: a record-writer call reports failure to its immediate caller exactly
when one of its sink writes fails (no retry, nothing swallowed), and reports
success — having delivered every record byte — when all sink writes
succeed. -/
theorem claim_C9 (sink : Nat → Bool) (ho tgt : Endian) (w : Nat)
    (arrays : List (List Nat)) :
    (write_record_run sink ho tgt w arrays).fst = (sink 0 && sink 1 && sink 2) ∧
      ((write_record_run sink ho tgt w arrays).fst = true →
        (write_record_run sink ho tgt w arrays).snd = write_record ho tgt w arrays) :=
  write_record_run_spec sink ho tgt w arrays

theorem claim_C9_witness :
    (write_record_run (fun j => decide (j ≠ 1)) Endian.little Endian.big 4 [[1]]).fst =
        ((fun j => decide (j ≠ 1)) 0 && (fun j => decide (j ≠ 1)) 1 &&
          (fun j => decide (j ≠ 1)) 2) ∧
      ((write_record_run (fun j => decide (j ≠ 1)) Endian.little Endian.big 4 [[1]]).fst =
          true →
        (write_record_run (fun j => decide (j ≠ 1)) Endian.little Endian.big 4 [[1]]).snd =
          write_record Endian.little Endian.big 4 [[1]]) :=
  claim_C9 (fun j => decide (j ≠ 1)) Endian.little Endian.big 4 [[1]]

/-- C10: `bs32`/`bs64` overwrite exactly their operand in place — afterwards
the operand holds the byte reversal of its prior pattern and every other
location is unchanged — while `swap_single`/`swap_double` take their
argument by value, leave the whole store untouched, and communicate only
through their return value. -/
theorem claim_C10 (s : Store) (v u : String) (hne : u ≠ v) :
    toBytesLE 4 (bs32_exec s v v) = (toBytesLE 4 (s v)).reverse ∧
      bs32_exec s v u = s u ∧
      toBytesLE 8 (bs64_exec s v v) = (toBytesLE 8 (s v)).reverse ∧
      bs64_exec s v u = s u ∧
      (swap_single_call s v).fst = s ∧
      (swap_double_call s v).fst = s ∧
      (swap_single_call s v).snd = swap_single ⟨s v⟩ ∧
      (swap_double_call s v).snd = swap_double ⟨s v⟩ := by
  refine ⟨?_, ?_, ?_, ?_, rfl, rfl, rfl, rfl⟩
  · show toBytesLE 4 (if v = v then bswap_32 (s v) else s v) = _
    rw [if_pos rfl]
    exact toBytesLE_bswap_32 (s v)
  · show (if u = v then bswap_32 (s v) else s u) = s u
    rw [if_neg hne]
  · show toBytesLE 8 (if v = v then bswap_64 (s v) else s v) = _
    rw [if_pos rfl]
    exact toBytesLE_bswap_64 (s v)
  · show (if u = v then bswap_64 (s v) else s u) = s u
    rw [if_neg hne]

theorem claim_C10_witness :
    ("y" ≠ "x") ∧
      (toBytesLE 4 (bs32_exec (fun _ => 0x01020304) "x" "x") =
          (toBytesLE 4 ((fun (_ : String) => 0x01020304) "x")).reverse ∧
        bs32_exec (fun _ => 0x01020304) "x" "y" = (fun (_ : String) => 0x01020304) "y" ∧
        toBytesLE 8 (bs64_exec (fun _ => 0x01020304) "x" "x") =
          (toBytesLE 8 ((fun (_ : String) => 0x01020304) "x")).reverse ∧
        bs64_exec (fun _ => 0x01020304) "x" "y" = (fun (_ : String) => 0x01020304) "y" ∧
        (swap_single_call (fun _ => 0x01020304) "x").fst = (fun _ => 0x01020304) ∧
        (swap_double_call (fun _ => 0x01020304) "x").fst = (fun _ => 0x01020304) ∧
        (swap_single_call (fun _ => 0x01020304) "x").snd =
          swap_single ⟨(fun (_ : String) => 0x01020304) "x"⟩ ∧
        (swap_double_call (fun _ => 0x01020304) "x").snd =
          swap_double ⟨(fun (_ : String) => 0x01020304) "x"⟩) :=
  ⟨by decide, claim_C10 (fun _ => 0x01020304) "x" "y" (by decide)⟩

end Cape
